import Mathlib

set_option maxRecDepth 2000

/-!
Verification development for the batch XML rule-rewriting and aggregation
engine of `core.py` (troca-xml-web).

Modelling conventions:
* Python strings are `List Char`; file contents are modelled at text level
  (the code decodes with `errors="ignore"` and re-encodes UTF-8).
* Python floats are modelled as exact rationals (`ℚ`); the stdlib `float()`
  constructor is modelled by `parseFloat` over the standard numeric literal
  grammar (sign, digits, decimal point, exponent).  `inf`/`nan` and
  underscore separators are outside the model.
* `dict` (insertion ordered) is an association list updated in place,
  `set` is a duplicate-free list, and `list.sort(key=..., reverse=True)`
  is a stable descending insertion sort.
* `re.sub` of the one concrete pattern the code uses
  (`(<cClass>{code}</cClass>)(?!<CFOP>)(<uMed>)`) is embedded directly as a
  left-to-right non-overlapping scanner; `re.escape` makes the code literal,
  which the scanner is by construction.  The replacement text `{cfop}` is
  taken literally (the application only supplies digit strings).
-/

/-- Python whitespace for `str.strip()` (ASCII range, as used by the data). -/
def pyIsSpace (c : Char) : Bool :=
  c == ' ' || c == '\t' || c == '\n' || c == '\r' || c == '\x0b' || c == '\x0c'

/-- Python `str.strip()`: drop whitespace from both ends. -/
def pyStrip (s : List Char) : List Char :=
  ((s.dropWhile pyIsSpace).reverse.dropWhile pyIsSpace).reverse

/-- Python `str.lower()` (ASCII behaviour suffices for the extensions used). -/
def pyLower (s : List Char) : List Char :=
  s.map Char.toLower

/-- The final path component (`pathlib.PurePath.name`). -/
def ultimaComponente (nome : List Char) : List Char :=
  (nome.reverse.takeWhile (fun c => c ≠ '/')).reverse

/-- `pathlib.PurePath.suffix`: the extension of the last component, including
the dot; empty when there is no dot, when the name starts with the dot
(hidden files) or ends with it. -/
def pySuffix (nome : List Char) : List Char :=
  let nm := ultimaComponente nome
  let r := nm.reverse
  if '.' ∈ nm then
    let k := r.findIdx (fun c => c = '.')
    if 0 < k ∧ k + 2 ≤ nm.length then (r.take (k + 1)).reverse else []
  else []

/-! ### `str.replace(tag, "")` — the removal scanner

`removeAux` scans left to right; at a position where `pat` matches it emits
nothing and continues after the match, otherwise it copies one character.
The fuel argument (initialised with the length of the string) only makes the
recursion structural; `removeAux_fuel` shows it is irrelevant. -/

def removeAux (pat : List Char) : Nat → List Char → List Char
  | 0, s => s
  | _ + 1, [] => []
  | fuel + 1, c :: resto =>
    if pat ≠ [] ∧ pat <+: (c :: resto) then
      removeAux pat fuel ((c :: resto).drop pat.length)
    else
      c :: removeAux pat fuel resto

/-- Python `s.replace(pat, "")` for a non-empty `pat` (for `pat = ""` and
replacement `""` Python returns `s` unchanged, as does this function). -/
def removeTudo (pat s : List Char) : List Char :=
  removeAux pat s.length s

theorem removeAux_fuel (pat : List Char) :
    ∀ f1 f2 s, s.length ≤ f1 → s.length ≤ f2 →
      removeAux pat f1 s = removeAux pat f2 s := by
  intro f1
  induction f1 with
  | zero =>
    intro f2 s h1 _
    have hs : s = [] := List.length_eq_zero.mp (Nat.le_zero.mp h1)
    subst hs
    cases f2 <;> rfl
  | succ f ih =>
    intro f2 s h1 h2
    cases s with
    | nil => cases f2 <;> rfl
    | cons c resto =>
      cases f2 with
      | zero => simp at h2
      | succ g =>
        by_cases h : pat ≠ [] ∧ pat <+: (c :: resto)
        · have hp : 1 ≤ pat.length := by
            cases pat with
            | nil => exact absurd rfl h.1
            | cons _ _ => simp
          simp only [removeAux, if_pos h]
          apply ih
          · simp only [List.length_drop, List.length_cons]
            simp only [List.length_cons] at h1
            omega
          · simp only [List.length_drop, List.length_cons]
            simp only [List.length_cons] at h2
            omega
        · simp only [removeAux, if_neg h]
          have hr1 : resto.length ≤ f := by
            simp only [List.length_cons] at h1; omega
          have hr2 : resto.length ≤ g := by
            simp only [List.length_cons] at h2; omega
          rw [ih g resto hr1 hr2]

theorem removeTudo_nil (pat : List Char) : removeTudo pat [] = [] := rfl

theorem removeTudo_avanca (pat : List Char) (c : Char) (resto : List Char)
    (h : ¬ (pat ≠ [] ∧ pat <+: (c :: resto))) :
    removeTudo pat (c :: resto) = c :: removeTudo pat resto := by
  show removeAux pat (resto.length + 1) (c :: resto) = _
  simp only [removeAux, if_neg h]
  rfl

theorem removeTudo_consome (pat resto : List Char) (hp : pat ≠ []) :
    removeTudo pat (pat ++ resto) = removeTudo pat resto := by
  cases pat with
  | nil => exact absurd rfl hp
  | cons p ps =>
    show removeAux (p :: ps) ((ps ++ resto).length + 1) (p :: (ps ++ resto)) = _
    have hpre : (p :: ps) <+: (p :: (ps ++ resto)) := List.prefix_append (p :: ps) resto
    have hcond : (p :: ps) ≠ [] ∧ (p :: ps) <+: (p :: (ps ++ resto)) := ⟨hp, hpre⟩
    simp only [removeAux, if_pos hcond]
    have hdrop : (p :: (ps ++ resto)).drop (p :: ps).length = resto :=
      List.drop_left (p :: ps) resto
    rw [hdrop]
    exact removeAux_fuel _ _ _ _ (by simp only [List.length_append]; omega) le_rfl

/-! ### The CFOP insertion scanner

Embedding of
`re.sub(rf"(<cClass>{re.escape(cclass)}</cClass>)(?!<CFOP>)(<uMed>)",
        rf"\1<CFOP>{cfop}</CFOP>\2", novo)`:
left-to-right non-overlapping matching; a match requires the literal
`<cClass>{code}</cClass>` followed by a position where `<CFOP>` does not
match (the negative lookahead) and `<uMed>` does; the replacement re-emits
both groups with `<CFOP>{cfop}</CFOP>` between them, and scanning resumes
after the match (after the `<uMed>`). -/

def cClassElem (code : List Char) : List Char :=
  "<cClass>".toList ++ code ++ "</cClass>".toList

def cfopTag : List Char := "<CFOP>".toList

def uMedTag : List Char := "<uMed>".toList

def cfopElem (cfop : List Char) : List Char :=
  "<CFOP>".toList ++ cfop ++ "</CFOP>".toList

theorem cClassElem_length_pos (code : List Char) : 1 ≤ (cClassElem code).length := by
  simp [cClassElem]

def insereAux (code cfop : List Char) : Nat → List Char → List Char
  | 0, s => s
  | _ + 1, [] => []
  | fuel + 1, c :: resto =>
    if (cClassElem code <+: (c :: resto))
        ∧ ¬ (cfopTag <+: ((c :: resto).drop (cClassElem code).length))
        ∧ (uMedTag <+: ((c :: resto).drop (cClassElem code).length)) then
      cClassElem code ++ (cfopElem cfop ++ (uMedTag
        ++ insereAux code cfop fuel
             (((c :: resto).drop (cClassElem code).length).drop uMedTag.length)))
    else
      c :: insereAux code cfop fuel resto

/-- One full `re.sub` pass for rule `(code, cfop)`. -/
def insereCFOP (code cfop s : List Char) : List Char :=
  insereAux code cfop s.length s

theorem insereAux_fuel (code cfop : List Char) :
    ∀ f1 f2 s, s.length ≤ f1 → s.length ≤ f2 →
      insereAux code cfop f1 s = insereAux code cfop f2 s := by
  intro f1
  induction f1 with
  | zero =>
    intro f2 s h1 _
    have hs : s = [] := List.length_eq_zero.mp (Nat.le_zero.mp h1)
    subst hs
    cases f2 <;> rfl
  | succ f ih =>
    intro f2 s h1 h2
    cases s with
    | nil => cases f2 <;> rfl
    | cons c resto =>
      cases f2 with
      | zero => simp at h2
      | succ g =>
        by_cases h : (cClassElem code <+: (c :: resto))
            ∧ ¬ (cfopTag <+: ((c :: resto).drop (cClassElem code).length))
            ∧ (uMedTag <+: ((c :: resto).drop (cClassElem code).length))
        · have hp : 1 ≤ (cClassElem code).length := cClassElem_length_pos code
          have hA : (((c :: resto).drop (cClassElem code).length).drop uMedTag.length).length
              ≤ f := by
            simp only [List.length_drop, List.length_cons]
            simp only [List.length_cons] at h1
            omega
          have hB : (((c :: resto).drop (cClassElem code).length).drop uMedTag.length).length
              ≤ g := by
            simp only [List.length_drop, List.length_cons]
            simp only [List.length_cons] at h2
            omega
          simp only [insereAux, if_pos h]
          rw [ih g _ hA hB]
        · simp only [insereAux, if_neg h]
          have hr1 : resto.length ≤ f := by
            simp only [List.length_cons] at h1; omega
          have hr2 : resto.length ≤ g := by
            simp only [List.length_cons] at h2; omega
          rw [ih g resto hr1 hr2]

theorem insereCFOP_nil (code cfop : List Char) : insereCFOP code cfop [] = [] := rfl

theorem insereCFOP_avanca (code cfop : List Char) (c : Char) (resto : List Char)
    (h : ¬ ((cClassElem code <+: (c :: resto))
        ∧ ¬ (cfopTag <+: ((c :: resto).drop (cClassElem code).length))
        ∧ (uMedTag <+: ((c :: resto).drop (cClassElem code).length)))) :
    insereCFOP code cfop (c :: resto) = c :: insereCFOP code cfop resto := by
  show insereAux code cfop (resto.length + 1) (c :: resto) = _
  simp only [insereAux, if_neg h]
  rfl

theorem insereCFOP_cons_casa (code cfop : List Char) (c : Char) (resto : List Char)
    (h : (cClassElem code <+: (c :: resto))
        ∧ ¬ (cfopTag <+: ((c :: resto).drop (cClassElem code).length))
        ∧ (uMedTag <+: ((c :: resto).drop (cClassElem code).length))) :
    insereCFOP code cfop (c :: resto)
      = cClassElem code ++ (cfopElem cfop ++ (uMedTag
          ++ insereCFOP code cfop (((c :: resto).drop (cClassElem code).length).drop uMedTag.length))) := by
  show insereAux code cfop (resto.length + 1) (c :: resto) = _
  simp only [insereAux, if_pos h]
  have hp : 1 ≤ (cClassElem code).length := cClassElem_length_pos code
  rw [insereAux_fuel code cfop resto.length _ _
    (by simp only [List.length_drop, List.length_cons]; omega) le_rfl]
  rfl

theorem nao_cfopTag_em_uMed (t : List Char) : ¬ cfopTag <+: (uMedTag ++ t) := by
  intro hpre
  have h1 : cfopTag = '<' :: 'C' :: "FOP>".toList := rfl
  have h2 : uMedTag ++ t = '<' :: 'u' :: ("Med>".toList ++ t) := rfl
  rw [h1, h2] at hpre
  obtain ⟨r, hr⟩ := hpre
  rw [List.cons_append, List.cons_append] at hr
  injection hr with _ hr2
  injection hr2 with hC _
  exact absurd hC (by decide)

/-- A match right at the start of the text: the `<cClass>` element followed by
`<uMed>` gets `<CFOP>{cfop}</CFOP>` inserted and scanning resumes after the
`<uMed>`. -/
theorem insereCFOP_casa (code cfop t : List Char) :
    insereCFOP code cfop (cClassElem code ++ (uMedTag ++ t))
      = cClassElem code ++ (cfopElem cfop ++ (uMedTag ++ insereCFOP code cfop t)) := by
  have hdrop : (cClassElem code ++ (uMedTag ++ t)).drop (cClassElem code).length
      = uMedTag ++ t := List.drop_left _ _
  have hpre : cClassElem code <+: (cClassElem code ++ (uMedTag ++ t)) :=
    List.prefix_append _ _
  cases hs : cClassElem code ++ (uMedTag ++ t) with
  | nil =>
    exact absurd hs (by simp [cClassElem])
  | cons c resto =>
    rw [hs] at hdrop hpre
    rw [insereCFOP_cons_casa code cfop c resto
      ⟨hpre, by rw [hdrop]; exact nao_cfopTag_em_uMed t,
        by rw [hdrop]; exact List.prefix_append _ _⟩]
    rw [hdrop, List.drop_left]

/-! ### Scan predicates (decidable hypotheses about where matches occur) -/

/-- `semCasamento pat um pre tail = true` iff at no position inside `pre`
(looking at the suffix of `pre ++ tail` starting there) does `pat`
followed by `um` match.  With `um = []` this says `pat` matches nowhere
inside `pre`. -/
def semCasamento (pat um : List Char) : List Char → List Char → Bool
  | [], _ => true
  | c :: p, tail =>
      (!(decide (pat <+: (c :: (p ++ tail)))
          && decide (um <+: ((c :: (p ++ tail)).drop pat.length))))
      && semCasamento pat um p tail

/-- `contemLista pat s = true` iff `pat` occurs somewhere in `s`. -/
def contemLista (pat : List Char) : List Char → Bool
  | [] => decide (pat = [])
  | c :: resto => decide (pat <+: (c :: resto)) || contemLista pat resto

/-- Every occurrence of `pat` in `s` is immediately followed by `nxt`. -/
def sempreSeguidoPor (pat nxt : List Char) : List Char → Bool
  | [] => true
  | c :: resto =>
      (!(decide (pat <+: (c :: resto)))
          || decide (nxt <+: ((c :: resto).drop pat.length)))
      && sempreSeguidoPor pat nxt resto

theorem removeTudo_salta (pat : List Char) :
    ∀ pre tail, semCasamento pat [] pre tail = true →
      removeTudo pat (pre ++ tail) = pre ++ removeTudo pat tail := by
  intro pre
  induction pre with
  | nil => intro tail _; rfl
  | cons c p ih =>
    intro tail h
    simp only [semCasamento, Bool.and_eq_true, Bool.not_eq_true',
      Bool.and_eq_false_iff, decide_eq_false_iff_not, List.nil_prefix,
      decide_eq_true_eq] at h
    have hnp : ¬ pat <+: (c :: (p ++ tail)) := by
      rcases h.1 with h' | h'
      · exact h'
      · exact absurd trivial h'
    have : (c :: p) ++ tail = c :: (p ++ tail) := rfl
    rw [this, removeTudo_avanca pat c (p ++ tail) (fun hc => hnp hc.2), ih tail h.2]
    rfl

theorem removeTudo_id_sem_ocorrencia (pat : List Char) :
    ∀ s, contemLista pat s = false → removeTudo pat s = s := by
  intro s
  induction s with
  | nil => intro _; rfl
  | cons c resto ih =>
    intro h
    simp only [contemLista, Bool.or_eq_false_iff, decide_eq_false_iff_not] at h
    rw [removeTudo_avanca pat c resto (fun hc => h.1 hc.2), ih h.2]

theorem insereCFOP_salta (code cfop : List Char) :
    ∀ pre tail, semCasamento (cClassElem code) uMedTag pre tail = true →
      insereCFOP code cfop (pre ++ tail) = pre ++ insereCFOP code cfop tail := by
  intro pre
  induction pre with
  | nil => intro tail _; rfl
  | cons c p ih =>
    intro tail h
    simp only [semCasamento, Bool.and_eq_true, Bool.not_eq_true',
      Bool.and_eq_false_iff, decide_eq_false_iff_not] at h
    have : (c :: p) ++ tail = c :: (p ++ tail) := rfl
    rw [this, insereCFOP_avanca code cfop c (p ++ tail)
        (fun hc => by rcases h.1 with h' | h' <;> exact absurd (by first | exact hc.1 | exact hc.2.2) h'),
      ih tail h.2]
    rfl

theorem insereCFOP_id_se_seguido (code cfop : List Char) :
    ∀ s, sempreSeguidoPor (cClassElem code) cfopTag s = true →
      insereCFOP code cfop s = s := by
  intro s
  induction s with
  | nil => intro _; rfl
  | cons c resto ih =>
    intro h
    simp only [sempreSeguidoPor, Bool.and_eq_true, Bool.or_eq_true,
      Bool.not_eq_true', decide_eq_false_iff_not, decide_eq_true_eq] at h
    have hcond : ¬ ((cClassElem code <+: (c :: resto))
        ∧ ¬ (cfopTag <+: ((c :: resto).drop (cClassElem code).length))
        ∧ (uMedTag <+: ((c :: resto).drop (cClassElem code).length))) := by
      intro hc
      rcases h.1 with h' | h'
      · exact h' hc.1
      · exact hc.2.1 h'
    rw [insereCFOP_avanca code cfop c resto hcond, ih h.2]

/-! ### `aplicar_regras_texto` (core.py lines 151-174)

The rule mapping (a Python `dict`, insertion ordered) is a list of
`(cclass, cfop)` pairs applied in order; a rule whose `cfop` is blank after
`strip()` is skipped. -/

def TAGS_DESCONTO : List (List Char) := ["<vDesc>".toList, "</vDesc>".toList]

def TAGS_OUTROS : List (List Char) := ["<vOutro>".toList, "</vOutro>".toList]

def aplicar_regras_texto (texto : List Char) (regras : List (List Char × List Char))
    (remover_desconto remover_outros : Bool) : List Char :=
  let n1 := if remover_desconto
    then TAGS_DESCONTO.foldl (fun acc tag => removeTudo tag acc) texto else texto
  let n2 := if remover_outros
    then TAGS_OUTROS.foldl (fun acc tag => removeTudo tag acc) n1 else n1
  regras.foldl
    (fun acc r => if pyStrip r.2 = [] then acc else insereCFOP r.1 r.2 acc) n2

theorem aplicar_regra_unica (texto code cfop : List Char) (h : pyStrip cfop ≠ []) :
    aplicar_regras_texto texto [(code, cfop)] false false = insereCFOP code cfop texto := by
  simp [aplicar_regras_texto, h]

/-! ### Archive batch processing (core.py lines 177-257)

A directory (and likewise a ZIP archive, which `processar_lote_zip` extracts
to a directory and re-packs from the output directory) is a list of files,
each a relative path plus decoded text content.  `rglob` enumeration order is
the list order; the output ZIP lists the files of the output directory in
write order. -/

structure Arquivo where
  nome : List Char
  conteudo : List Char
deriving DecidableEq

/-- The configured extensions (`EXTENSOES = [".xml", ".txt"]`); a file is
processed iff its lowercased `Path.suffix` is one of them. -/
def EXTENSOES : List (List Char) := [".xml".toList, ".txt".toList]

def elegivel (nome : List Char) : Bool :=
  decide (pyLower (pySuffix nome) ∈ EXTENSOES)

/-- `salvar_em_saida`: write a file into the output directory (overwrite a
file of the same relative path, otherwise create it). -/
def escrever (saida : List Arquivo) (nome conteudo : List Char) : List Arquivo :=
  if saida.any (fun g => g.nome == nome) then
    saida.map (fun g => if g.nome == nome then ⟨nome, conteudo⟩ else g)
  else saida ++ [⟨nome, conteudo⟩]

structure ResultadoLote where
  saida : List Arquivo
  total : Nat
  alterados : Nat
  copiados : Nat
deriving DecidableEq

/-- The loop body: transform one selected file and write it to the output
folder (the `alterados`/`copiados` counters track changed/unchanged files). -/
def passoLote (regras : List (List Char × List Char)) (rd ro : Bool)
    (st : List Arquivo × Nat × Nat) (f : Arquivo) : List Arquivo × Nat × Nat :=
  let original := f.conteudo
  let novo := aplicar_regras_texto original regras rd ro
  if novo ≠ original then (escrever st.1 f.nome novo, st.2.1 + 1, st.2.2)
  else (escrever st.1 f.nome original, st.2.1, st.2.2 + 1)

/-- `processar_lote_pasta`: select the `.xml`/`.txt` files, apply the rules to
each, write every selected file (changed or not) to the output folder and
count the changed/unchanged ones.  Files with any other extension are not
enumerated and hence never written to the output. -/
def processar_lote_pasta (entrada : List Arquivo) (regras : List (List Char × List Char))
    (remover_desconto remover_outros : Bool) : ResultadoLote :=
  let arquivos := entrada.filter (fun f => elegivel f.nome)
  let st := arquivos.foldl (passoLote regras remover_desconto remover_outros)
    (([], 0, 0) : List Arquivo × Nat × Nat)
  ⟨st.1, arquivos.length, st.2.1, st.2.2⟩

/-- `processar_lote_zip`: unpack, run `processar_lote_pasta`, re-pack the
output folder.  The resulting archive is the output folder's listing. -/
def processar_lote_zip (entrada : List Arquivo) (regras : List (List Char × List Char))
    (remover_desconto remover_outros : Bool) : List Arquivo :=
  (processar_lote_pasta entrada regras remover_desconto remover_outros).saida

/-! ### `_to_float` (core.py lines 693-707)

The Python `float()` constructor is modelled by `parseFloat` over the
standard decimal literal grammar `[+|-] (digits [. digits] | . digits)
[(e|E) [+|-] digits]`, producing an exact rational. -/

def natDe (s : List Char) : Nat :=
  s.foldl (fun n c => 10 * n + (c.toNat - '0'.toNat)) 0

/-- Shallow embedding of a natural number into `ℚ`. -/
def qDe (n : Nat) : ℚ := Rat.divInt (Int.ofNat n) 1

/-- Rational addition in a form that evaluates by plain kernel reduction
(`Rat.add` itself is irreducible); `qAdd_eq` identifies it with `+`. -/
def qAdd (a b : ℚ) : ℚ := mkRat (a.num * b.den + b.num * a.den) (a.den * b.den)

def qMul (a b : ℚ) : ℚ := mkRat (a.num * b.num) (a.den * b.den)

def qDiv (a b : ℚ) : ℚ := Rat.divInt (a.num * b.den) (a.den * b.num)

def qNeg (a : ℚ) : ℚ := Rat.neg a

theorem qDe_eq (n : Nat) : qDe n = (n : ℚ) := by
  unfold qDe
  rw [Rat.divInt_one]
  simp

theorem qAdd_eq (a b : ℚ) : qAdd a b = a + b := (Rat.add_def' a b).symm

theorem qMul_eq (a b : ℚ) : qMul a b = a * b := by
  unfold qMul
  conv_rhs => rw [← Rat.mkRat_self a, ← Rat.mkRat_self b]
  rw [Rat.mkRat_mul_mkRat]

theorem qDiv_eq (a b : ℚ) : qDiv a b = a / b := (Rat.div_def' a b).symm

theorem qNeg_eq (a : ℚ) : qNeg a = -a := rfl

/-- `(10 : ℚ) ^ n`, in shallowly evaluating form. -/
def potDez : Nat → ℚ
  | 0 => 1
  | n + 1 => qMul (qDe 10) (potDez n)

theorem potDez_eq (n : Nat) : potDez n = (10 : ℚ) ^ n := by
  induction n with
  | zero => rfl
  | succ m ih => rw [potDez, qMul_eq, qDe_eq, ih, pow_succ]; push_cast; ring

/-- Optional leading sign: returns (negative?, rest). -/
def tiraSinal (s : List Char) : Bool × List Char :=
  match s with
  | c :: t => if c = '-' then (true, t) else if c = '+' then (false, t) else (false, s)
  | [] => (false, [])

/-- Exponent part after `e`/`E`: optional sign, then mandatory digits ending
the string. -/
def parseExp (v : ℚ) (s : List Char) : Option ℚ :=
  let sr := tiraSinal s
  let ds := sr.2.takeWhile Char.isDigit
  let rest := sr.2.dropWhile Char.isDigit
  if ds = [] ∨ rest ≠ [] then none
  else some (if sr.1 then qDiv v (potDez (natDe ds)) else qMul v (potDez (natDe ds)))

def parseFloat (s : List Char) : Option ℚ :=
  let sg := tiraSinal s
  let ip := sg.2.takeWhile Char.isDigit
  let s2 := sg.2.dropWhile Char.isDigit
  let core : Option ℚ :=
    match s2 with
    | [] => if ip = [] then none else some (qDe (natDe ip))
    | '.' :: s3 =>
      let fp := s3.takeWhile Char.isDigit
      let s4 := s3.dropWhile Char.isDigit
      if ip = [] ∧ fp = [] then none
      else
        let v : ℚ := qAdd (qDe (natDe ip)) (qDiv (qDe (natDe fp)) (potDez fp.length))
        match s4 with
        | [] => some v
        | 'e' :: s5 => parseExp v s5
        | 'E' :: s5 => parseExp v s5
        | _ => none
    | 'e' :: s5 => if ip = [] then none else parseExp (qDe (natDe ip)) s5
    | 'E' :: s5 => if ip = [] then none else parseExp (qDe (natDe ip)) s5
    | _ => none
  match core with
  | none => none
  | some v => some (if sg.1 then qNeg v else v)

/-- `_to_float`: strip, remove spaces, resolve `,`/`.` separators, then parse;
`0.0` on failure.  (The Python `None` input case is outside the string
model.) -/
def _to_float (valor : List Char) : ℚ :=
  let s0 := pyStrip valor
  if s0 = [] then 0
  else
    let s1 := s0.filter (fun c => c ≠ ' ')
    let s2 := if ',' ∈ s1 ∧ '.' ∈ s1
      then (s1.filter (fun c => c ≠ '.')).map (fun c => if c = ',' then '.' else c)
      else s1.map (fun c => if c = ',' then '.' else c)
    (parseFloat s2).getD 0

/-! ### The summary engine (core.py lines 693-806)

`parse_nfcom` (ElementTree XML parsing, lines 312-393) is abstracted at its
interface: an input file is its name together with the parse outcome —
`none` for a parse error (`err` non-empty or no record), `some` a record
with the access key and the retained line items (the parser keeps an item
iff `cClass` or `xProd` is non-empty).  `montar_relatorio_resumo` receives
the list of `.xml` files found (folder existence and `rglob`/`glob`
enumeration are outside the model; list order is enumeration order). -/

structure Item where
  cClass : List Char
  xProd : List Char
  qCom : List Char
  vProd : List Char
deriving DecidableEq

structure Nota where
  chave : List Char
  itens : List Item
deriving DecidableEq

structure ItemInfo where
  notas : List (List Char)
  v_scm : ℚ
  v_sva : ℚ
  v_apps : ℚ
  v_total : ℚ
deriving DecidableEq

structure CClassInfo where
  notas : List (List Char)
  qtd_itens : Nat
  v_total : ℚ
deriving DecidableEq

structure LinhaItem where
  xProd : List Char
  cClass : List Char
  qtd_notas : Nat
  v_scm : ℚ
  v_sva : ℚ
  v_apps : ℚ
  v_total : ℚ
  pct : ℚ
deriving DecidableEq

structure LinhaCClass where
  cClass : List Char
  qtd_notas : Nat
  qtd_itens : Nat
  v_total : ℚ
  descricao : List Char
deriving DecidableEq

structure Resumo where
  linhas_item : List LinhaItem
  linhas_cclass : List LinhaCClass
  total_geral : ℚ
  total_notas_distintas : Nat
  labels : List (List Char)
  valores : List ℚ
  total_arquivos : Nat
deriving DecidableEq

/-- Python `a or b` on strings (empty string is falsy). -/
def ouSenao (a b : List Char) : List Char := if a = [] then b else a

/-- Insertion-ordered `dict` update: apply `f` to the entry at `k`, inserting
`f inicial` at the end when absent (mirrors `d[k] = inicial` followed by the
field updates). -/
def alAtualiza {kt it : Type} [DecidableEq kt] (k : kt) (f : it → it) (inicial : it) :
    List (kt × it) → List (kt × it)
  | [] => [(k, f inicial)]
  | (k2, v) :: t => if k2 = k then (k2, f v) :: t else (k2, v) :: alAtualiza k f inicial t

/-- `dict.get(k, pad)`. -/
def alBusca {kt it : Type} [DecidableEq kt] (k : kt) (pad : it) : List (kt × it) → it
  | [] => pad
  | (k2, v) :: t => if k2 = k then v else alBusca k pad t

/-- `set.add`: a set of invoice ids as a duplicate-free list. -/
def insereNota (nid : List Char) (l : List (List Char)) : List (List Char) :=
  if nid ∈ l then l else l ++ [nid]

/-- core.py lines 717-723. -/
def _classificar_coluna_por_cclass (cclass : List Char) : List Char :=
  let cc := pyStrip cclass
  if "06".toList <+: cc then "sva".toList
  else if "11".toList <+: cc then "apps".toList
  else "scm".toList

def itemFresco : ItemInfo := ⟨[], 0, 0, 0, 0⟩

def cclassFresco : CClassInfo := ⟨[], 0, 0⟩

/-- The per-item update of a `por_item` entry: record the invoice id, add the
value to the column selected by the classification code, add it to the
total. -/
def aplicaItem (nid cclass : List Char) (v : ℚ) (info : ItemInfo) : ItemInfo :=
  let i1 : ItemInfo := { info with notas := insereNota nid info.notas }
  let i2 : ItemInfo :=
    if _classificar_coluna_por_cclass cclass = "sva".toList then
      { i1 with v_sva := qAdd i1.v_sva v }
    else if _classificar_coluna_por_cclass cclass = "apps".toList then
      { i1 with v_apps := qAdd i1.v_apps v }
    else
      { i1 with v_scm := qAdd i1.v_scm v }
  { i2 with v_total := qAdd i2.v_total v }

/-- The per-item update of a `por_cclass` entry. -/
def aplicaCClass (nid : List Char) (v : ℚ) (info : CClassInfo) : CClassInfo :=
  { notas := insereNota nid info.notas
    qtd_itens := info.qtd_itens + 1
    v_total := qAdd info.v_total v }

/-- One line item of one invoice, accumulated into both maps. -/
def passoItem (nid : List Char)
    (st : List ((List Char × List Char) × ItemInfo) × List (List Char × CClassInfo))
    (it : Item) :
    List ((List Char × List Char) × ItemInfo) × List (List Char × CClassInfo) :=
  let cclass := ouSenao (pyStrip it.cClass) "SEM_CCLASS".toList
  let xprod := ouSenao (pyStrip it.xProd) "(Sem descrição do item)".toList
  let v := _to_float it.vProd
  (alAtualiza (xprod, cclass) (aplicaItem nid cclass v) itemFresco st.1,
   alAtualiza cclass (aplicaCClass nid v) cclassFresco st.2)

/-- One file: a parse failure contributes nothing; otherwise each retained
item is accumulated with `nota_id = chave.strip() or f.name`. -/
def passoArquivo
    (st : List ((List Char × List Char) × ItemInfo) × List (List Char × CClassInfo))
    (f : List Char × Option Nota) :
    List ((List Char × List Char) × ItemInfo) × List (List Char × CClassInfo) :=
  match f.2 with
  | none => st
  | some nota => nota.itens.foldl (passoItem (ouSenao (pyStrip nota.chave) f.1)) st

/-- Stable insertion step for a descending sort: `a` (coming from earlier in
the input) is placed before the first element whose key is `≤` its key. -/
def insDesc {at2 : Type} (chave : at2 → ℚ) (a : at2) : List at2 → List at2
  | [] => [a]
  | b :: t => if chave b ≤ chave a then a :: b :: t else b :: insDesc chave a t

/-- Python `list.sort(key=..., reverse=True)`: stable, descending by key. -/
def sortDesc {at2 : Type} (chave : at2 → ℚ) (l : List at2) : List at2 :=
  l.foldr (insDesc chave) []

/-- `sum(...) or 0.0` over the `v_total` fields of `por_item` (the `or 0.0`
maps the float `-0.0`/`0.0` to `0.0`; on `ℚ` it is the identity). -/
def somaTotais (pi : List ((List Char × List Char) × ItemInfo)) : ℚ :=
  pi.foldl (fun acc kv => qAdd acc kv.2.v_total) 0

def mkLinhaItem (total : ℚ) (kv : (List Char × List Char) × ItemInfo) : LinhaItem :=
  { xProd := kv.1.1
    cClass := kv.1.2
    qtd_notas := kv.2.notas.length
    v_scm := kv.2.v_scm
    v_sva := kv.2.v_sva
    v_apps := kv.2.v_apps
    v_total := kv.2.v_total
    pct := if total = 0 then 0 else qMul (qDiv kv.2.v_total total) (qDe 100) }

def mkLinhaCClass (mapa : List (List Char × List Char)) (kv : List Char × CClassInfo) :
    LinhaCClass :=
  { cClass := kv.1
    qtd_notas := kv.2.notas.length
    qtd_itens := kv.2.qtd_itens
    v_total := kv.2.v_total
    descricao := ouSenao (alBusca kv.1 [] mapa) "(sem descrição na Tabela-cClass)".toList }

/-- core.py lines 726-806. -/
def montar_relatorio_resumo (arquivos : List (List Char × Option Nota))
    (mapa_desc : List (List Char × List Char)) : Resumo :=
  let st := arquivos.foldl passoArquivo ([], [])
  let total_geral := somaTotais st.1
  let linhas_item := sortDesc LinhaItem.v_total (st.1.map (mkLinhaItem total_geral))
  let linhas_cclass := sortDesc LinhaCClass.v_total (st.2.map (mkLinhaCClass mapa_desc))
  let top := linhas_cclass.take 20
  { linhas_item := linhas_item
    linhas_cclass := linhas_cclass
    total_geral := total_geral
    total_notas_distintas := ((st.2.map (fun kv => kv.2.notas)).flatten).dedup.length
    labels := top.map LinhaCClass.cClass
    valores := top.map (fun l => if l.v_total = 0 then 0 else l.v_total)
    total_arquivos := arquivos.length }

/-! ### Concrete inputs used by witnesses and counterexamples -/

/-- The spec's end-to-end scenario plus one malformed file: two invoices with
one `Internet` item each (`100,00` and `50,00`) and one file that fails to
parse. -/
def arquivosTeste : List (List Char × Option Nota) :=
  [("a.xml".toList,
      some ⟨"ch1".toList, [⟨"0600101".toList, "Internet".toList, "1".toList, "100,00".toList⟩]⟩),
   ("b.xml".toList,
      some ⟨"ch2".toList, [⟨"0600101".toList, "Internet".toList, "1".toList, "50,00".toList⟩]⟩),
   ("c.xml".toList, none)]

/-- Thirteen line items with thirteen distinct classification codes. -/
def itens13 : List Item :=
  (List.range 13).map (fun i =>
    ⟨("c".toList ++ Nat.toDigits 10 (i + 1)), "p".toList, "1".toList,
      [Char.ofNat (49 + i % 9)]⟩)

def arquivos13 : List (List Char × Option Nota) :=
  [("a.xml".toList, some ⟨"ch".toList, itens13⟩)]

/-- With an empty rule set, `aplicar_regras_texto` is just the two optional
removal passes. -/
theorem aplicar_vazio (texto : List Char) (rd ro : Bool) :
    aplicar_regras_texto texto [] rd ro
      = (if ro then removeTudo "</vOutro>".toList (removeTudo "<vOutro>".toList
          (if rd then removeTudo "</vDesc>".toList (removeTudo "<vDesc>".toList texto)
           else texto))
         else (if rd then removeTudo "</vDesc>".toList (removeTudo "<vDesc>".toList texto)
           else texto)) := rfl

/-! ### Helper lemmas for the removal claims -/

/-- Removing an isolated well-formed `abre ... fecha` pair deletes exactly the
two tag markers and keeps the enclosed content. -/
theorem remocao_par (abre fecha a b c : List Char)
    (h_ab : abre ≠ []) (h_fe : fecha ≠ [])
    (h1 : semCasamento abre [] a (abre ++ (b ++ (fecha ++ c))) = true)
    (h2 : contemLista abre (b ++ (fecha ++ c)) = false)
    (h3 : semCasamento fecha [] a (b ++ (fecha ++ c)) = true)
    (h4 : semCasamento fecha [] b (fecha ++ c) = true)
    (h5 : contemLista fecha c = false) :
    removeTudo fecha (removeTudo abre (a ++ (abre ++ (b ++ (fecha ++ c)))))
      = a ++ (b ++ c) := by
  rw [removeTudo_salta abre a _ h1, removeTudo_consome abre _ h_ab,
    removeTudo_id_sem_ocorrencia abre _ h2]
  rw [removeTudo_salta fecha a _ h3, removeTudo_salta fecha b _ h4,
    removeTudo_consome fecha c h_fe, removeTudo_id_sem_ocorrencia fecha c h5]

theorem remocao_id (abre fecha y : List Char)
    (h1 : contemLista abre y = false) (h2 : contemLista fecha y = false) :
    removeTudo fecha (removeTudo abre y) = y := by
  rw [removeTudo_id_sem_ocorrencia abre y h1, removeTudo_id_sem_ocorrencia fecha y h2]

theorem aplicar_id_regras (texto : List Char) (regras : List (List Char × List Char))
    (h : ∀ r ∈ regras, sempreSeguidoPor (cClassElem r.1) cfopTag texto = true) :
    aplicar_regras_texto texto regras false false = texto := by
  show regras.foldl _ texto = texto
  induction regras with
  | nil => rfl
  | cons r rs ih =>
    rw [List.foldl_cons]
    have hstep : (if pyStrip r.2 = [] then texto else insereCFOP r.1 r.2 texto) = texto := by
      by_cases hb : pyStrip r.2 = []
      · simp [hb]
      · simp only [if_neg hb]
        exact insereCFOP_id_se_seguido r.1 r.2 texto (h r (List.mem_cons_self r rs))
    rw [hstep]
    exact ih (fun x hx => h x (List.mem_cons_of_mem r hx))

/-! ### Claims C2, C3, C4, C8 -/

/-- C2 counterexample: the claim says every `<cClass>{code}</cClass>`
occurrence *not followed by `<CFOP>`* receives an insertion; here the
occurrence is followed by `<abc>`, no `<CFOP>` exists anywhere, yet the
document is returned unchanged with no `<CFOP>` inserted. -/
theorem C2_contraexemplo :
    contemLista (cClassElem "0600101".toList) "<cClass>0600101</cClass><abc>".toList = true
    ∧ contemLista cfopTag "<cClass>0600101</cClass><abc>".toList = false
    ∧ aplicar_regras_texto "<cClass>0600101</cClass><abc>".toList
        [("0600101".toList, "5102".toList)] false false
      = "<cClass>0600101</cClass><abc>".toList :=
  ⟨by decide, by decide, by decide⟩

/-- C2 (amended): an occurrence of `<cClass>{code}</cClass>` receives the
insertion `<CFOP>{cfop}</CFOP>` exactly when it is immediately followed by
`<uMed>`; after a prefix containing no such match, the first such occurrence
is rewritten and processing continues on the remainder. -/
theorem C2_correcao (code cfop pre t : List Char)
    (hcfop : pyStrip cfop ≠ [])
    (hpre : semCasamento (cClassElem code) uMedTag pre
        (cClassElem code ++ (uMedTag ++ t)) = true) :
    aplicar_regras_texto (pre ++ (cClassElem code ++ (uMedTag ++ t)))
        [(code, cfop)] false false
      = pre ++ (cClassElem code ++ (cfopElem cfop ++ (uMedTag
          ++ aplicar_regras_texto t [(code, cfop)] false false))) := by
  rw [aplicar_regra_unica _ _ _ hcfop, aplicar_regra_unica _ _ _ hcfop]
  rw [insereCFOP_salta code cfop pre _ hpre, insereCFOP_casa]

theorem C2_correcao_testemunha :
    pyStrip "5102".toList ≠ []
    ∧ aplicar_regras_texto
        ("<x>".toList ++ (cClassElem "0600101".toList ++ (uMedTag ++ "UN</uMed>".toList)))
        [("0600101".toList, "5102".toList)] false false
      = "<x>".toList ++ (cClassElem "0600101".toList ++ (cfopElem "5102".toList ++ (uMedTag
          ++ aplicar_regras_texto "UN</uMed>".toList
              [("0600101".toList, "5102".toList)] false false))) :=
  ⟨by decide, C2_correcao "0600101".toList "5102".toList "<x>".toList "UN</uMed>".toList
    (by decide) (by decide)⟩

/-- C3 counterexample: removal with `remover_desconto` keeps the enclosed
content `10.00` — the span is not deleted in its entirety. -/
theorem C3_contraexemplo :
    aplicar_regras_texto "<vDesc>10.00</vDesc>".toList [] true false = "10.00".toList
    ∧ aplicar_regras_texto "<vDesc>10.00</vDesc>".toList [] true false ≠ [] :=
  ⟨by decide, by decide⟩

/-- C3 (amended): the removal flags delete every occurrence of the *tag
markers* `<vDesc>`/`</vDesc>` (resp. `<vOutro>`/`</vOutro>`) themselves;
for an isolated well-formed pair the enclosed content is preserved:
`a<vDesc>b</vDesc>c` becomes `abc`, not `ac`. -/
theorem C3_correcao (a b c : List Char)
    (h1 : semCasamento "<vDesc>".toList [] a
        ("<vDesc>".toList ++ (b ++ ("</vDesc>".toList ++ c))) = true)
    (h2 : contemLista "<vDesc>".toList (b ++ ("</vDesc>".toList ++ c)) = false)
    (h3 : semCasamento "</vDesc>".toList [] a (b ++ ("</vDesc>".toList ++ c)) = true)
    (h4 : semCasamento "</vDesc>".toList [] b ("</vDesc>".toList ++ c) = true)
    (h5 : contemLista "</vDesc>".toList c = false)
    (h6 : semCasamento "<vOutro>".toList [] a
        ("<vOutro>".toList ++ (b ++ ("</vOutro>".toList ++ c))) = true)
    (h7 : contemLista "<vOutro>".toList (b ++ ("</vOutro>".toList ++ c)) = false)
    (h8 : semCasamento "</vOutro>".toList [] a (b ++ ("</vOutro>".toList ++ c)) = true)
    (h9 : semCasamento "</vOutro>".toList [] b ("</vOutro>".toList ++ c) = true)
    (h10 : contemLista "</vOutro>".toList c = false) :
    aplicar_regras_texto (a ++ ("<vDesc>".toList ++ (b ++ ("</vDesc>".toList ++ c))))
        [] true false = a ++ (b ++ c)
    ∧ aplicar_regras_texto (a ++ ("<vOutro>".toList ++ (b ++ ("</vOutro>".toList ++ c))))
        [] false true = a ++ (b ++ c) := by
  constructor
  · show removeTudo "</vDesc>".toList (removeTudo "<vDesc>".toList _) = _
    exact remocao_par _ _ a b c (by decide) (by decide) h1 h2 h3 h4 h5
  · show removeTudo "</vOutro>".toList (removeTudo "<vOutro>".toList _) = _
    exact remocao_par _ _ a b c (by decide) (by decide) h6 h7 h8 h9 h10

theorem C3_correcao_testemunha :
    aplicar_regras_texto ("<x>".toList ++ ("<vDesc>".toList ++ ("9,90".toList
        ++ ("</vDesc>".toList ++ "</x>".toList)))) [] true false
      = "<x>".toList ++ ("9,90".toList ++ "</x>".toList)
    ∧ aplicar_regras_texto ("<x>".toList ++ ("<vOutro>".toList ++ ("9,90".toList
        ++ ("</vOutro>".toList ++ "</x>".toList)))) [] false true
      = "<x>".toList ++ ("9,90".toList ++ "</x>".toList) :=
  C3_correcao "<x>".toList "9,90".toList "</x>".toList
    (by decide) (by decide) (by decide) (by decide) (by decide)
    (by decide) (by decide) (by decide) (by decide) (by decide)

/-- C4 counterexample: the document contains `<cClass>1</cClass><CFOP>2</CFOP>`
and a rule for code `1` is applied, yet the result is not byte-identical,
because another occurrence of `<cClass>1</cClass>` is followed by `<uMed>`
and receives an insertion. -/
theorem C4_contraexemplo :
    contemLista "<cClass>1</cClass><CFOP>2</CFOP>".toList
      "<cClass>1</cClass><CFOP>2</CFOP><cClass>1</cClass><uMed>x".toList = true
    ∧ aplicar_regras_texto
        "<cClass>1</cClass><CFOP>2</CFOP><cClass>1</cClass><uMed>x".toList
        [("1".toList, "9".toList)] false false
      ≠ "<cClass>1</cClass><CFOP>2</CFOP><cClass>1</cClass><uMed>x".toList :=
  ⟨by decide, by decide⟩

/-- C4 (amended): no insertion ever happens at an occurrence already followed
by `<CFOP>`; consequently a document in which, for each rule code `X`, every
occurrence of `<cClass>X</cClass>` is immediately followed by `<CFOP>` is
returned byte-identical. -/
theorem C4_correcao (texto : List Char) (regras : List (List Char × List Char))
    (h : ∀ r ∈ regras, sempreSeguidoPor (cClassElem r.1) cfopTag texto = true) :
    aplicar_regras_texto texto regras false false = texto :=
  aplicar_id_regras texto regras h

theorem C4_correcao_testemunha :
    sempreSeguidoPor (cClassElem "7".toList) cfopTag
      "<cClass>7</cClass><CFOP>5102</CFOP><uMed>UN</uMed>".toList = true
    ∧ aplicar_regras_texto "<cClass>7</cClass><CFOP>5102</CFOP><uMed>UN</uMed>".toList
        [("7".toList, "9999".toList)] false false
      = "<cClass>7</cClass><CFOP>5102</CFOP><uMed>UN</uMed>".toList :=
  ⟨by decide, C4_correcao _ _ (by
    intro r hr
    rw [List.mem_singleton] at hr
    subst hr
    decide)⟩

/-- C8 counterexample: discount removal is not idempotent.  On
`<vDe<vDesc>sc>` one removal pass yields `<vDesc>` (deleting the inner
marker glues the surrounding fragments into a new tag occurrence) and a
second pass deletes that, so applying removal twice differs from applying
it once. -/
theorem C8_contraexemplo :
    aplicar_regras_texto "<vDe<vDesc>sc>".toList [] true false = "<vDesc>".toList
    ∧ aplicar_regras_texto
        (aplicar_regras_texto "<vDe<vDesc>sc>".toList [] true false) [] true false = []
    ∧ aplicar_regras_texto
        (aplicar_regras_texto "<vDe<vDesc>sc>".toList [] true false) [] true false
      ≠ aplicar_regras_texto "<vDe<vDesc>sc>".toList [] true false :=
  ⟨by decide, by decide, by decide⟩

/-- C8 (amended): removal is idempotent whenever the once-processed text
contains no further occurrence of the removal tags (which holds for every
document in which the tags do not reappear from glued fragments). -/
theorem C8_correcao (texto : List Char) (rd ro : Bool)
    (hd : rd = true →
      contemLista "<vDesc>".toList (aplicar_regras_texto texto [] rd ro) = false
      ∧ contemLista "</vDesc>".toList (aplicar_regras_texto texto [] rd ro) = false)
    (ho : ro = true →
      contemLista "<vOutro>".toList (aplicar_regras_texto texto [] rd ro) = false
      ∧ contemLista "</vOutro>".toList (aplicar_regras_texto texto [] rd ro) = false) :
    aplicar_regras_texto (aplicar_regras_texto texto [] rd ro) [] rd ro
      = aplicar_regras_texto texto [] rd ro := by
  rw [aplicar_vazio (aplicar_regras_texto texto [] rd ro) rd ro]
  cases rd with
  | false =>
    cases ro with
    | false => simp
    | true =>
      have h := ho rfl
      simpa using remocao_id _ _ _ h.1 h.2
  | true =>
    cases ro with
    | false =>
      have h := hd rfl
      simpa using remocao_id _ _ _ h.1 h.2
    | true =>
      have h1 := hd rfl
      have h2 := ho rfl
      simp only [if_true]
      rw [remocao_id _ _ _ h1.1 h1.2]
      exact remocao_id _ _ _ h2.1 h2.2

theorem C8_correcao_testemunha :
    aplicar_regras_texto
        (aplicar_regras_texto "<a><vDesc>5</vDesc><vOutro>2</vOutro></a>".toList
          [] true true) [] true true
      = aplicar_regras_texto "<a><vDesc>5</vDesc><vOutro>2</vOutro></a>".toList
          [] true true :=
  C8_correcao "<a><vDesc>5</vDesc><vOutro>2</vOutro></a>".toList true true
    (fun _ => ⟨by decide, by decide⟩) (fun _ => ⟨by decide, by decide⟩)

/-! ### Claim C1 -/

theorem escrever_fresco (saida : List Arquivo) (nome conteudo : List Char)
    (h : ∀ g ∈ saida, g.nome ≠ nome) :
    escrever saida nome conteudo = saida ++ [⟨nome, conteudo⟩] := by
  unfold escrever
  have hany : saida.any (fun g => g.nome == nome) = false := by
    rw [List.any_eq_false]
    intro g hg
    simpa using h g hg
  rw [hany]
  simp

theorem lote_fold (regras : List (List Char × List Char)) (rd ro : Bool) :
    ∀ (todo : List Arquivo) (acc : List Arquivo) (al cop : Nat),
      (∀ f ∈ todo, ∀ g ∈ acc, g.nome ≠ f.nome) →
      (todo.map Arquivo.nome).Nodup →
      (todo.foldl (passoLote regras rd ro) (acc, al, cop)).1
        = acc ++ todo.map
            (fun f => ⟨f.nome, aplicar_regras_texto f.conteudo regras rd ro⟩) := by
  intro todo
  induction todo with
  | nil => intro acc al cop _ _; simp
  | cons f resto ih =>
    intro acc al cop hfresco hnodup
    rw [List.foldl_cons]
    have hnomes : f.nome ∉ resto.map Arquivo.nome := by
      simp only [List.map_cons, List.nodup_cons] at hnodup
      exact hnodup.1
    have hstep : ∀ al2 cop2 : Nat, passoLote regras rd ro (acc, al2, cop2) f
        = (acc ++ [⟨f.nome, aplicar_regras_texto f.conteudo regras rd ro⟩],
           (passoLote regras rd ro (acc, al2, cop2) f).2) := by
      intro al2 cop2
      unfold passoLote
      by_cases hch : aplicar_regras_texto f.conteudo regras rd ro ≠ f.conteudo
      · simp only [if_pos hch]
        rw [escrever_fresco acc f.nome _ (fun g hg => hfresco f (List.mem_cons_self f resto) g hg)]
      · simp only [if_neg hch]
        rw [not_not] at hch
        rw [escrever_fresco acc f.nome _ (fun g hg => hfresco f (List.mem_cons_self f resto) g hg)]
        rw [hch]
    rw [hstep al cop]
    have hfresco2 : ∀ f2 ∈ resto,
        ∀ g ∈ acc ++ [(⟨f.nome, aplicar_regras_texto f.conteudo regras rd ro⟩ : Arquivo)],
          g.nome ≠ f2.nome := by
      intro f2 hf2 g hg
      rcases List.mem_append.mp hg with hga | hgb
      · exact hfresco f2 (List.mem_cons_of_mem f hf2) g hga
      · rw [List.mem_singleton] at hgb
        subst hgb
        intro he
        exact hnomes (he ▸ List.mem_map_of_mem Arquivo.nome hf2)
    have hnodup2 : (resto.map Arquivo.nome).Nodup := by
      simp only [List.map_cons, List.nodup_cons] at hnodup
      exact hnodup.2
    rw [ih _ _ _ hfresco2 hnodup2]
    simp [List.append_assoc]

/-- C1 counterexample: a one-entry archive holding `doc.pdf` produces an
*empty* output archive — the non-XML entry is not copied verbatim and the
entry counts differ. -/
theorem C1_contraexemplo :
    processar_lote_zip [⟨"doc.pdf".toList, "conteudo".toList⟩] [] false false = []
    ∧ ([(⟨"doc.pdf".toList, "conteudo".toList⟩ : Arquivo)] : List Arquivo).length = 1 :=
  ⟨by decide, rfl⟩

/-- C1 (amended): for an input archive with distinct entry paths, the output
archive consists of exactly the entries whose lowercased extension is `.xml`
or `.txt`, in input order and under the same relative paths, each holding
the rule-transformed text; entries with any other extension are omitted, and
the reported `total` counts exactly the selected entries. -/
theorem C1_correcao (entrada : List Arquivo) (regras : List (List Char × List Char))
    (rd ro : Bool) (h : (entrada.map Arquivo.nome).Nodup) :
    processar_lote_zip entrada regras rd ro
      = (entrada.filter (fun f => elegivel f.nome)).map
          (fun f => ⟨f.nome, aplicar_regras_texto f.conteudo regras rd ro⟩)
    ∧ (processar_lote_pasta entrada regras rd ro).total
      = (entrada.filter (fun f => elegivel f.nome)).length := by
  constructor
  · have hsub : ((entrada.filter (fun f => elegivel f.nome)).map Arquivo.nome).Nodup :=
      h.sublist ((entrada.filter_sublist (p := fun f => elegivel f.nome)).map Arquivo.nome)
    show ((entrada.filter (fun f => elegivel f.nome)).foldl
        (passoLote regras rd ro) ([], 0, 0)).1 = _
    rw [lote_fold regras rd ro _ [] 0 0 (by intro f _ g hg; simp at hg) hsub]
    simp
  · rfl

theorem C1_correcao_testemunha :
    (([⟨"a.xml".toList, "<x/>".toList⟩, ⟨"b.pdf".toList, "p".toList⟩] : List Arquivo).map
        Arquivo.nome).Nodup
    ∧ processar_lote_zip [⟨"a.xml".toList, "<x/>".toList⟩, ⟨"b.pdf".toList, "p".toList⟩]
        [] false false = [⟨"a.xml".toList, "<x/>".toList⟩] := by
  have h : (([⟨"a.xml".toList, "<x/>".toList⟩, ⟨"b.pdf".toList, "p".toList⟩] : List Arquivo).map
      Arquivo.nome).Nodup := by decide
  exact ⟨h, ((C1_correcao _ [] false false h).1).trans (by decide)⟩

/-! ### Claim C7: characterisation of `_to_float` -/

theorem digito_nao_espaco {c : Char} (h : c.isDigit = true) : pyIsSpace c = false := by
  by_contra hn
  rw [Bool.not_eq_false] at hn
  simp only [pyIsSpace, Bool.or_eq_true, beq_iff_eq] at hn
  rcases hn with ((((h1 | h1) | h1) | h1) | h1) | h1 <;> subst h1 <;>
    exact absurd h (by decide)

theorem digito_nao_ponto {c : Char} (h : c.isDigit = true) : c ≠ '.' := by
  intro he; subst he; exact absurd h (by decide)

theorem digito_nao_virgula {c : Char} (h : c.isDigit = true) : c ≠ ',' := by
  intro he; subst he; exact absurd h (by decide)

theorem nao_espaco_char {c : Char} (h : pyIsSpace c = false) : c ≠ ' ' := by
  intro he; subst he; exact absurd h (by decide)

theorem pyStrip_sem_espaco (s : List Char) (h : ∀ c ∈ s, pyIsSpace c = false) :
    pyStrip s = s := by
  unfold pyStrip
  have h1 : s.dropWhile pyIsSpace = s := by
    cases s with
    | nil => rfl
    | cons c t =>
      rw [List.dropWhile_cons, if_neg]
      simp [h c (List.mem_cons_self c t)]
  rw [h1]
  have h2 : s.reverse.dropWhile pyIsSpace = s.reverse := by
    cases hs : s.reverse with
    | nil => rfl
    | cons c t =>
      rw [List.dropWhile_cons, if_neg]
      have hc : c ∈ s.reverse := by rw [hs]; exact List.mem_cons_self c t
      rw [List.mem_reverse] at hc
      simp [h c hc]
  rw [h2, List.reverse_reverse]

theorem span_digitos (a r : List Char) (ha : ∀ c ∈ a, c.isDigit = true)
    (hr : ∀ d t, r = d :: t → d.isDigit = false) :
    (a ++ r).takeWhile Char.isDigit = a ∧ (a ++ r).dropWhile Char.isDigit = r := by
  induction a with
  | nil =>
    simp only [List.nil_append]
    cases r with
    | nil => exact ⟨rfl, rfl⟩
    | cons d t =>
      rw [List.takeWhile_cons, List.dropWhile_cons]
      rw [hr d t rfl]
      exact ⟨rfl, rfl⟩
  | cons c a2 ih =>
    have hc : c.isDigit = true := ha c (List.mem_cons_self c a2)
    have ih2 := ih (fun x hx => ha x (List.mem_cons_of_mem c hx))
    rw [List.cons_append, List.takeWhile_cons, List.dropWhile_cons, hc]
    simp only [if_true]
    exact ⟨by rw [ih2.1], by rw [ih2.2]⟩

theorem tiraSinal_digito (c : Char) (t : List Char) (h : c.isDigit = true) :
    tiraSinal (c :: t) = (false, c :: t) := by
  have h1 : ¬ c = '-' := by intro he; subst he; exact absurd h (by decide)
  have h2 : ¬ c = '+' := by intro he; subst he; exact absurd h (by decide)
  simp only [tiraSinal, if_neg h1, if_neg h2]

/-- `float()` on `digits.digits` is the exact decimal value. -/
theorem parseFloat_digitos_ponto (a b : List Char) (hna : a ≠ [])
    (ha : ∀ c ∈ a, c.isDigit = true) (hb : ∀ c ∈ b, c.isDigit = true) :
    parseFloat (a ++ '.' :: b)
      = some (qAdd (qDe (natDe a)) (qDiv (qDe (natDe b)) (potDez b.length))) := by
  obtain ⟨c0, a0, rfl⟩ : ∃ c0 a0, a = c0 :: a0 := by
    cases a with
    | nil => exact absurd rfl hna
    | cons c0 a0 => exact ⟨c0, a0, rfl⟩
  have hspan := span_digitos (c0 :: a0) ('.' :: b) ha
    (fun d t he => by injection he with h1 _; subst h1; decide)
  rw [List.cons_append] at hspan
  have hfp := span_digitos b [] hb (fun d t he => by simp at he)
  rw [List.append_nil] at hfp
  unfold parseFloat
  rw [show (c0 :: a0) ++ '.' :: b = c0 :: (a0 ++ '.' :: b) from rfl]
  rw [tiraSinal_digito c0 _ (ha c0 (List.mem_cons_self c0 a0))]
  simp only
  rw [← List.cons_append] at hspan ⊢
  rw [hspan.1, hspan.2]
  simp only
  rw [hfp.1, hfp.2]
  rw [if_neg (by simp)]
  simp

theorem parseFloat_digitos (a : List Char) (hna : a ≠ [])
    (ha : ∀ c ∈ a, c.isDigit = true) :
    parseFloat a = some (qDe (natDe a)) := by
  obtain ⟨c0, a0, rfl⟩ : ∃ c0 a0, a = c0 :: a0 := by
    cases a with
    | nil => exact absurd rfl hna
    | cons c0 a0 => exact ⟨c0, a0, rfl⟩
  have hspan := span_digitos (c0 :: a0) [] ha (fun d t he => by simp at he)
  rw [List.append_nil] at hspan
  unfold parseFloat
  rw [tiraSinal_digito c0 _ (ha c0 (List.mem_cons_self c0 a0))]
  simp only
  rw [hspan.1, hspan.2]
  rw [if_neg (by simp)]
  simp

theorem filtra_espaco_id (s : List Char) (h : ∀ c ∈ s, pyIsSpace c = false) :
    s.filter (fun c => c ≠ ' ') = s := by
  rw [List.filter_eq_self]
  intro c hc
  simpa using nao_espaco_char (h c hc)

theorem _to_float_pipeline (s : List Char) (hne : s ≠ [])
    (hns : ∀ c ∈ s, pyIsSpace c = false) :
    _to_float s = (parseFloat (if ',' ∈ s ∧ '.' ∈ s
        then (s.filter (fun c => c ≠ '.')).map (fun c => if c = ',' then '.' else c)
        else s.map (fun c => if c = ',' then '.' else c))).getD 0 := by
  unfold _to_float
  simp only [pyStrip_sem_espaco s hns, if_neg hne, filtra_espaco_id s hns]

theorem filtra_ponto_digitos (l : List Char) (h : ∀ c ∈ l, c.isDigit = true) :
    l.filter (fun c => c ≠ '.') = l := by
  rw [List.filter_eq_self]
  intro c hc
  simpa using digito_nao_ponto (h c hc)

theorem mapa_virgula_id (l : List Char) (h : ∀ c ∈ l, c ≠ ',') :
    l.map (fun c => if c = ',' then '.' else c) = l := by
  induction l with
  | nil => rfl
  | cons c t ih =>
    simp only [List.map_cons, if_neg (h c (List.mem_cons_self c t))]
    rw [ih (fun x hx => h x (List.mem_cons_of_mem c hx))]

theorem digitos_sem_espaco (l : List Char) (h : ∀ c ∈ l, c.isDigit = true) :
    ∀ c ∈ l, pyIsSpace c = false :=
  fun c hc => digito_nao_espaco (h c hc)

/-- C7: `_to_float` characterisation — whitespace-only or unparseable input
yields `0`; with both separators `.` is a thousands separator and `,` the
decimal point; a lone `,` is the decimal point; a lone `.` (or none) parses
standardly. -/
theorem C7_to_float :
    (∀ s : List Char, (∀ c ∈ s, pyIsSpace c = true) → _to_float s = 0)
    ∧ _to_float "abc".toList = 0
    ∧ (∀ a : List Char, a ≠ [] → (∀ c ∈ a, c.isDigit = true) →
        _to_float a = qDe (natDe a))
    ∧ (∀ a b : List Char, a ≠ [] → (∀ c ∈ a, c.isDigit = true) →
        b ≠ [] → (∀ c ∈ b, c.isDigit = true) →
        _to_float (a ++ '.' :: b)
          = qAdd (qDe (natDe a)) (qDiv (qDe (natDe b)) (potDez b.length)))
    ∧ (∀ a b : List Char, a ≠ [] → (∀ c ∈ a, c.isDigit = true) →
        b ≠ [] → (∀ c ∈ b, c.isDigit = true) →
        _to_float (a ++ ',' :: b)
          = qAdd (qDe (natDe a)) (qDiv (qDe (natDe b)) (potDez b.length)))
    ∧ (∀ a b c : List Char, a ≠ [] → (∀ x ∈ a, x.isDigit = true) →
        b ≠ [] → (∀ x ∈ b, x.isDigit = true) →
        c ≠ [] → (∀ x ∈ c, x.isDigit = true) →
        _to_float (a ++ ('.' :: (b ++ (',' :: c))))
          = qAdd (qDe (natDe (a ++ b))) (qDiv (qDe (natDe c)) (potDez c.length))) := by
  refine ⟨?_, by decide, ?_, ?_, ?_, ?_⟩
  · -- whitespace-only input
    intro s h
    unfold _to_float
    have h0 : pyStrip s = [] := by
      unfold pyStrip
      rw [List.dropWhile_eq_nil_iff.mpr (fun c hc => h c hc)]
      rfl
    rw [h0]
    simp
  · -- digits only
    intro a hna ha
    rw [_to_float_pipeline a hna (digitos_sem_espaco a ha)]
    have hnc : ¬ (',' ∈ a ∧ '.' ∈ a) := by
      intro hcc
      exact absurd rfl (digito_nao_virgula (ha ',' hcc.1))
    rw [if_neg hnc, mapa_virgula_id a (fun c hc => digito_nao_virgula (ha c hc))]
    rw [parseFloat_digitos a hna ha]
    rfl
  · -- digits '.' digits
    intro a b hna ha hnb hb
    have hmem : ∀ c ∈ a ++ '.' :: b, pyIsSpace c = false := by
      intro c hc
      rcases List.mem_append.mp hc with h1 | h1
      · exact digito_nao_espaco (ha c h1)
      · rcases List.mem_cons.mp h1 with h2 | h2
        · subst h2; decide
        · exact digito_nao_espaco (hb c h2)
    rw [_to_float_pipeline _ (by simp [hna]) hmem]
    have hnc : ¬ (',' ∈ a ++ '.' :: b ∧ '.' ∈ a ++ '.' :: b) := by
      intro hcc
      rcases List.mem_append.mp hcc.1 with h1 | h1
      · exact absurd rfl (digito_nao_virgula (ha ',' h1))
      · rcases List.mem_cons.mp h1 with h2 | h2
        · exact absurd h2 (by decide)
        · exact absurd rfl (digito_nao_virgula (hb ',' h2))
    rw [if_neg hnc]
    have hmap : (a ++ '.' :: b).map (fun c => if c = ',' then '.' else c) = a ++ '.' :: b := by
      apply mapa_virgula_id
      intro c hc
      rcases List.mem_append.mp hc with h1 | h1
      · exact digito_nao_virgula (ha c h1)
      · rcases List.mem_cons.mp h1 with h2 | h2
        · subst h2; decide
        · exact digito_nao_virgula (hb c h2)
    rw [hmap, parseFloat_digitos_ponto a b hna ha hb]
    rfl
  · -- digits ',' digits
    intro a b hna ha hnb hb
    have hmem : ∀ c ∈ a ++ ',' :: b, pyIsSpace c = false := by
      intro c hc
      rcases List.mem_append.mp hc with h1 | h1
      · exact digito_nao_espaco (ha c h1)
      · rcases List.mem_cons.mp h1 with h2 | h2
        · subst h2; decide
        · exact digito_nao_espaco (hb c h2)
    rw [_to_float_pipeline _ (by simp [hna]) hmem]
    have hnc : ¬ (',' ∈ a ++ ',' :: b ∧ '.' ∈ a ++ ',' :: b) := by
      intro hcc
      rcases List.mem_append.mp hcc.2 with h1 | h1
      · exact absurd rfl (digito_nao_ponto (ha '.' h1))
      · rcases List.mem_cons.mp h1 with h2 | h2
        · exact absurd h2 (by decide)
        · exact absurd rfl (digito_nao_ponto (hb '.' h2))
    rw [if_neg hnc]
    have hmap : (a ++ ',' :: b).map (fun c => if c = ',' then '.' else c) = a ++ '.' :: b := by
      rw [List.map_append, List.map_cons]
      rw [mapa_virgula_id a (fun c hc => digito_nao_virgula (ha c hc))]
      rw [mapa_virgula_id b (fun c hc => digito_nao_virgula (hb c hc))]
      simp
    rw [hmap, parseFloat_digitos_ponto a b hna ha hb]
    rfl
  · -- digits '.' digits ',' digits
    intro a b c hna ha hnb hb hnc2 hc
    have hmem : ∀ x ∈ a ++ ('.' :: (b ++ (',' :: c))), pyIsSpace x = false := by
      intro x hx
      rcases List.mem_append.mp hx with h1 | h1
      · exact digito_nao_espaco (ha x h1)
      · rcases List.mem_cons.mp h1 with h2 | h2
        · subst h2; decide
        · rcases List.mem_append.mp h2 with h3 | h3
          · exact digito_nao_espaco (hb x h3)
          · rcases List.mem_cons.mp h3 with h4 | h4
            · subst h4; decide
            · exact digito_nao_espaco (hc x h4)
    rw [_to_float_pipeline _ (by simp [hna]) hmem]
    have hboth : ',' ∈ a ++ ('.' :: (b ++ (',' :: c)))
        ∧ '.' ∈ a ++ ('.' :: (b ++ (',' :: c))) := by
      constructor
      · exact List.mem_append.mpr (Or.inr (List.mem_cons.mpr (Or.inr
          (List.mem_append.mpr (Or.inr (List.mem_cons_self ',' c))))))
      · exact List.mem_append.mpr (Or.inr (List.mem_cons_self '.' _))
    rw [if_pos hboth]
    have e1 : List.filter (fun x => x ≠ '.') ('.' :: (b ++ (',' :: c)))
        = b ++ (',' :: c) := by
      rw [List.filter_cons, if_neg (by decide)]
      rw [List.filter_append, filtra_ponto_digitos b hb]
      rw [List.filter_cons, if_pos (by decide)]
      rw [filtra_ponto_digitos c hc]
    have hfil : (a ++ ('.' :: (b ++ (',' :: c)))).filter (fun x => x ≠ '.')
        = a ++ (b ++ (',' :: c)) := by
      rw [List.filter_append, filtra_ponto_digitos a ha, e1]
    rw [hfil]
    have hmap : (a ++ (b ++ (',' :: c))).map (fun x => if x = ',' then '.' else x)
        = (a ++ b) ++ '.' :: c := by
      rw [List.map_append, List.map_append, List.map_cons]
      rw [mapa_virgula_id a (fun x hx => digito_nao_virgula (ha x hx))]
      rw [mapa_virgula_id b (fun x hx => digito_nao_virgula (hb x hx))]
      rw [mapa_virgula_id c (fun x hx => digito_nao_virgula (hc x hx))]
      simp [List.append_assoc]
    rw [hmap]
    rw [parseFloat_digitos_ponto (a ++ b) c (by simp [hna])
      (fun x hx => (List.mem_append.mp hx).elim (ha x) (hb x)) hc]
    rfl

theorem C7_to_float_testemunha :
    _to_float ("1".toList ++ ('.' :: ("234".toList ++ (',' :: "56".toList))))
      = qAdd (qDe (natDe ("1".toList ++ "234".toList)))
          (qDiv (qDe (natDe "56".toList)) (potDez ("56".toList).length)) :=
  C7_to_float.2.2.2.2.2 "1".toList "234".toList "56".toList
    (by decide) (by decide) (by decide) (by decide) (by decide) (by decide)

/-! ### Summary-engine lemmas -/

theorem insDesc_perm {at2 : Type} (chave : at2 → ℚ) (a : at2) :
    ∀ l : List at2, (insDesc chave a l).Perm (a :: l) := by
  intro l
  induction l with
  | nil => exact List.Perm.refl _
  | cons b t ih =>
    rw [insDesc]
    by_cases h : chave b ≤ chave a
    · rw [if_pos h]
    · rw [if_neg h]
      exact (ih.cons b).trans (List.Perm.swap a b t)

theorem sortDesc_perm {at2 : Type} (chave : at2 → ℚ) :
    ∀ l : List at2, (sortDesc chave l).Perm l := by
  intro l
  induction l with
  | nil => exact List.Perm.refl _
  | cons a t ih =>
    show (insDesc chave a (sortDesc chave t)).Perm (a :: t)
    exact (insDesc_perm chave a (sortDesc chave t)).trans (ih.cons a)

theorem sortDesc_map_sum {at2 : Type} (chave : at2 → ℚ) (f : at2 → ℚ) (l : List at2) :
    ((sortDesc chave l).map f).sum = (l.map f).sum :=
  ((sortDesc_perm chave l).map f).sum_eq

theorem sortDesc_mem {at2 : Type} (chave : at2 → ℚ) (l : List at2) (x : at2) :
    x ∈ sortDesc chave l ↔ x ∈ l :=
  (sortDesc_perm chave l).mem_iff

theorem foldl_qAdd {at2 : Type} (g : at2 → ℚ) :
    ∀ (l : List at2) (acc : ℚ),
      l.foldl (fun a x => qAdd a (g x)) acc = acc + (l.map g).sum := by
  intro l
  induction l with
  | nil => intro acc; simp
  | cons x t ih =>
    intro acc
    rw [List.foldl_cons, ih, qAdd_eq]
    rw [List.map_cons, List.sum_cons, add_assoc]

def somaI (pi : List ((List Char × List Char) × ItemInfo)) : ℚ :=
  (pi.map (fun kv => kv.2.v_total)).sum

def somaC (pc : List (List Char × CClassInfo)) : ℚ :=
  (pc.map (fun kv => kv.2.v_total)).sum

theorem somaTotais_eq (pi : List ((List Char × List Char) × ItemInfo)) :
    somaTotais pi = somaI pi := by
  unfold somaTotais somaI
  rw [foldl_qAdd]
  rw [zero_add]

theorem soma_alAtualiza {kt it : Type} [DecidableEq kt] (g : it → ℚ) (k : kt)
    (f : it → it) (inicial : it) (d : ℚ)
    (hf : ∀ v, g (f v) = g v + d) (h0 : g (f inicial) = d) :
    ∀ l : List (kt × it),
      ((alAtualiza k f inicial l).map (fun kv => g kv.2)).sum
        = (l.map (fun kv => g kv.2)).sum + d := by
  intro l
  induction l with
  | nil => simp [alAtualiza, h0]
  | cons kv t ih =>
    obtain ⟨k2, v⟩ := kv
    rw [alAtualiza]
    by_cases h : k2 = k
    · rw [if_pos h]
      simp only [List.map_cons, List.sum_cons, hf v]
      ring
    · rw [if_neg h]
      simp only [List.map_cons, List.sum_cons, ih]
      ring

theorem aplicaItem_total (nid cclass : List Char) (v : ℚ) (info : ItemInfo) :
    (aplicaItem nid cclass v info).v_total = info.v_total + v := by
  simp only [aplicaItem]
  rw [qAdd_eq]
  congr 1
  split
  · rfl
  · split <;> rfl

theorem aplicaCClass_total (nid : List Char) (v : ℚ) (info : CClassInfo) :
    (aplicaCClass nid v info).v_total = info.v_total + v := by
  simp only [aplicaCClass]
  rw [qAdd_eq]

theorem passoItem_somas (nid : List Char) (st) (it : Item) :
    somaI (passoItem nid st it).1 = somaI st.1 + _to_float it.vProd
    ∧ somaC (passoItem nid st it).2 = somaC st.2 + _to_float it.vProd := by
  constructor
  · exact soma_alAtualiza ItemInfo.v_total _ _ itemFresco (_to_float it.vProd)
      (fun w => aplicaItem_total _ _ _ w)
      (by rw [aplicaItem_total]; simp [itemFresco]) st.1
  · exact soma_alAtualiza CClassInfo.v_total _ _ cclassFresco (_to_float it.vProd)
      (fun w => aplicaCClass_total _ _ w)
      (by rw [aplicaCClass_total]; simp [cclassFresco]) st.2

theorem itens_somas (nid : List Char) :
    ∀ (itens : List Item) (st),
      somaI (itens.foldl (passoItem nid) st).1
          = somaI st.1 + (itens.map (fun it => _to_float it.vProd)).sum
      ∧ somaC (itens.foldl (passoItem nid) st).2
          = somaC st.2 + (itens.map (fun it => _to_float it.vProd)).sum := by
  intro itens
  induction itens with
  | nil => intro st; simp
  | cons it t ih =>
    intro st
    rw [List.foldl_cons]
    obtain ⟨ih1, ih2⟩ := ih (passoItem nid st it)
    obtain ⟨hp1, hp2⟩ := passoItem_somas nid st it
    constructor
    · rw [ih1, hp1, List.map_cons, List.sum_cons]; ring
    · rw [ih2, hp2, List.map_cons, List.sum_cons]; ring

theorem arquivos_somas :
    ∀ (arquivos : List (List Char × Option Nota)) (st),
      ∃ t : ℚ, somaI (arquivos.foldl passoArquivo st).1 = somaI st.1 + t
        ∧ somaC (arquivos.foldl passoArquivo st).2 = somaC st.2 + t := by
  intro arquivos
  induction arquivos with
  | nil => intro st; exact ⟨0, by simp, by simp⟩
  | cons f resto ih =>
    intro st
    rw [List.foldl_cons]
    obtain ⟨t2, ht1, ht2⟩ := ih (passoArquivo st f)
    obtain ⟨nome, o⟩ := f
    cases o with
    | none => exact ⟨t2, ht1, ht2⟩
    | some nota =>
      obtain ⟨hi1, hi2⟩ := itens_somas (ouSenao (pyStrip nota.chave) nome) nota.itens st
      have hp : passoArquivo st (nome, some nota)
          = nota.itens.foldl (passoItem (ouSenao (pyStrip nota.chave) nome)) st := rfl
      rw [hp] at ht1 ht2
      refine ⟨(nota.itens.map (fun it => _to_float it.vProd)).sum + t2, ?_, ?_⟩
      · rw [hp, ht1, hi1]; ring
      · rw [hp, ht2, hi2]; ring

theorem somas_iguais (arquivos : List (List Char × Option Nota)) :
    somaI (arquivos.foldl passoArquivo ([], [])).1
      = somaC (arquivos.foldl passoArquivo ([], [])).2 := by
  obtain ⟨t, h1, h2⟩ := arquivos_somas arquivos ([], [])
  rw [h1, h2]
  rfl

theorem soma_pct_map (T : ℚ) (l : List ℚ) :
    (l.map (fun v => qMul (qDiv v T) (qDe 100))).sum = l.sum / T * 100 := by
  induction l with
  | nil => simp
  | cons v t ih =>
    rw [List.map_cons, List.sum_cons, List.sum_cons, ih, qMul_eq, qDiv_eq, qDe_eq]
    push_cast
    ring

/-- C5: conservation of the aggregation — the classification totals, the item
totals and the grand total agree exactly (floats modelled as rationals); the
item percentages sum to 100 whenever the grand total is positive and are all
0 when the grand total is 0 (the division is guarded, not an error).  The
by-classification rows carry no percentage field in the code. -/
theorem C5_conservacao (arquivos : List (List Char × Option Nota))
    (mapa : List (List Char × List Char)) :
    (((montar_relatorio_resumo arquivos mapa).linhas_cclass.map LinhaCClass.v_total).sum
        = (montar_relatorio_resumo arquivos mapa).total_geral
      ∧ ((montar_relatorio_resumo arquivos mapa).linhas_item.map LinhaItem.v_total).sum
        = (montar_relatorio_resumo arquivos mapa).total_geral)
    ∧ (0 < (montar_relatorio_resumo arquivos mapa).total_geral →
        ((montar_relatorio_resumo arquivos mapa).linhas_item.map LinhaItem.pct).sum = 100)
    ∧ ((montar_relatorio_resumo arquivos mapa).total_geral = 0 →
        ∀ l ∈ (montar_relatorio_resumo arquivos mapa).linhas_item, l.pct = 0) := by
  have hli : (montar_relatorio_resumo arquivos mapa).linhas_item
      = sortDesc LinhaItem.v_total
          ((arquivos.foldl passoArquivo ([], [])).1.map
            (mkLinhaItem (somaTotais (arquivos.foldl passoArquivo ([], [])).1))) := rfl
  have hlc : (montar_relatorio_resumo arquivos mapa).linhas_cclass
      = sortDesc LinhaCClass.v_total
          ((arquivos.foldl passoArquivo ([], [])).2.map (mkLinhaCClass mapa)) := rfl
  have htg : (montar_relatorio_resumo arquivos mapa).total_geral
      = somaTotais (arquivos.foldl passoArquivo ([], [])).1 := rfl
  have hsomaC : ((arquivos.foldl passoArquivo ([], [])).2.map
        (mkLinhaCClass mapa)).map LinhaCClass.v_total
      = (arquivos.foldl passoArquivo ([], [])).2.map (fun kv => kv.2.v_total) := by
    rw [List.map_map]
    rfl
  have hsomaI : ((arquivos.foldl passoArquivo ([], [])).1.map
        (mkLinhaItem (somaTotais (arquivos.foldl passoArquivo ([], [])).1))).map
          LinhaItem.v_total
      = (arquivos.foldl passoArquivo ([], [])).1.map (fun kv => kv.2.v_total) := by
    rw [List.map_map]
    rfl
  refine ⟨⟨?_, ?_⟩, ?_, ?_⟩
  · rw [hlc, htg, sortDesc_map_sum, hsomaC, somaTotais_eq]
    exact (somas_iguais arquivos).symm
  · rw [hli, htg, sortDesc_map_sum, hsomaI, somaTotais_eq]
    rfl
  · intro hpos
    rw [htg] at hpos
    have hT : somaTotais (arquivos.foldl passoArquivo ([], [])).1 ≠ 0 := ne_of_gt hpos
    rw [hli, sortDesc_map_sum, List.map_map]
    have hcomp : (LinhaItem.pct ∘
          mkLinhaItem (somaTotais (arquivos.foldl passoArquivo ([], [])).1))
        = fun kv => qMul (qDiv kv.2.v_total
            (somaTotais (arquivos.foldl passoArquivo ([], [])).1)) (qDe 100) := by
      funext kv
      show (if somaTotais (arquivos.foldl passoArquivo ([], [])).1 = 0 then 0
        else qMul (qDiv kv.2.v_total (somaTotais (arquivos.foldl passoArquivo ([], [])).1))
          (qDe 100)) = _
      rw [if_neg hT]
    rw [hcomp]
    rw [show ((arquivos.foldl passoArquivo ([], [])).1.map
          (fun kv => qMul (qDiv kv.2.v_total
            (somaTotais (arquivos.foldl passoArquivo ([], [])).1)) (qDe 100)))
        = ((arquivos.foldl passoArquivo ([], [])).1.map (fun kv => kv.2.v_total)).map
            (fun v => qMul (qDiv v (somaTotais (arquivos.foldl passoArquivo ([], [])).1))
              (qDe 100)) from by rw [List.map_map]; rfl]
    rw [soma_pct_map]
    rw [show ((arquivos.foldl passoArquivo ([], [])).1.map (fun kv => kv.2.v_total)).sum
        = somaTotais (arquivos.foldl passoArquivo ([], [])).1 from (somaTotais_eq _).symm]
    rw [div_self hT, one_mul]
  · intro hzero l hl
    rw [htg] at hzero
    rw [hli, sortDesc_mem] at hl
    obtain ⟨kv, _, rfl⟩ := List.mem_map.mp hl
    show (if somaTotais (arquivos.foldl passoArquivo ([], [])).1 = 0 then 0
      else qMul (qDiv kv.2.v_total (somaTotais (arquivos.foldl passoArquivo ([], [])).1))
        (qDe 100)) = 0
    rw [if_pos hzero]

theorem C5_conservacao_testemunha :
    0 < (montar_relatorio_resumo arquivosTeste []).total_geral
    ∧ ((montar_relatorio_resumo arquivosTeste []).linhas_item.map LinhaItem.pct).sum
      = 100 :=
  ⟨by decide, (C5_conservacao arquivosTeste []).2.1 (by decide)⟩

theorem fold_ignora_erros :
    ∀ (arquivos : List (List Char × Option Nota)) st,
      arquivos.foldl passoArquivo st
        = (arquivos.filter (fun f => f.2.isSome)).foldl passoArquivo st := by
  intro arquivos
  induction arquivos with
  | nil => intro st; rfl
  | cons f resto ih =>
    intro st
    obtain ⟨nome, o⟩ := f
    cases o with
    | none =>
      have h1 : passoArquivo st (nome, none) = st := rfl
      have h2 : ((nome, none) :: resto).filter (fun f => f.2.isSome)
          = resto.filter (fun f => f.2.isSome) := by
        rw [List.filter_cons, if_neg (by simp)]
      rw [List.foldl_cons, h1, h2, ih]
    | some nota =>
      have h2 : ((nome, some nota) :: resto).filter (fun f => f.2.isSome)
          = (nome, some nota) :: resto.filter (fun f => f.2.isSome) := by
        rw [List.filter_cons, if_pos (by simp)]
      rw [List.foldl_cons, h2, List.foldl_cons, ih]

/-- C9: a file whose extraction fails contributes to no aggregate — every
output component except the file count coincides with the run on the
successfully parsed files only — while `total_arquivos` still counts every
enumerated file. -/
theorem C9_degradacao (arquivos : List (List Char × Option Nota))
    (mapa : List (List Char × List Char)) :
    (montar_relatorio_resumo arquivos mapa).linhas_item
        = (montar_relatorio_resumo (arquivos.filter (fun f => f.2.isSome)) mapa).linhas_item
    ∧ (montar_relatorio_resumo arquivos mapa).linhas_cclass
        = (montar_relatorio_resumo (arquivos.filter (fun f => f.2.isSome)) mapa).linhas_cclass
    ∧ (montar_relatorio_resumo arquivos mapa).total_geral
        = (montar_relatorio_resumo (arquivos.filter (fun f => f.2.isSome)) mapa).total_geral
    ∧ (montar_relatorio_resumo arquivos mapa).total_notas_distintas
        = (montar_relatorio_resumo (arquivos.filter (fun f => f.2.isSome))
            mapa).total_notas_distintas
    ∧ (montar_relatorio_resumo arquivos mapa).labels
        = (montar_relatorio_resumo (arquivos.filter (fun f => f.2.isSome)) mapa).labels
    ∧ (montar_relatorio_resumo arquivos mapa).valores
        = (montar_relatorio_resumo (arquivos.filter (fun f => f.2.isSome)) mapa).valores
    ∧ (montar_relatorio_resumo arquivos mapa).total_arquivos = arquivos.length := by
  have hf := fold_ignora_erros arquivos ([], [])
  have e1 : ∀ ars : List (List Char × Option Nota),
      (montar_relatorio_resumo ars mapa).linhas_item
        = sortDesc LinhaItem.v_total ((ars.foldl passoArquivo ([], [])).1.map
            (mkLinhaItem (somaTotais (ars.foldl passoArquivo ([], [])).1))) := fun _ => rfl
  have e2 : ∀ ars : List (List Char × Option Nota),
      (montar_relatorio_resumo ars mapa).linhas_cclass
        = sortDesc LinhaCClass.v_total
            ((ars.foldl passoArquivo ([], [])).2.map (mkLinhaCClass mapa)) := fun _ => rfl
  have e3 : ∀ ars : List (List Char × Option Nota),
      (montar_relatorio_resumo ars mapa).total_geral
        = somaTotais (ars.foldl passoArquivo ([], [])).1 := fun _ => rfl
  have e4 : ∀ ars : List (List Char × Option Nota),
      (montar_relatorio_resumo ars mapa).total_notas_distintas
        = (((ars.foldl passoArquivo ([], [])).2.map
            (fun kv => kv.2.notas)).flatten).dedup.length := fun _ => rfl
  have e5 : ∀ ars : List (List Char × Option Nota),
      (montar_relatorio_resumo ars mapa).labels
        = ((sortDesc LinhaCClass.v_total
            ((ars.foldl passoArquivo ([], [])).2.map (mkLinhaCClass mapa))).take 20).map
              LinhaCClass.cClass := fun _ => rfl
  have e6 : ∀ ars : List (List Char × Option Nota),
      (montar_relatorio_resumo ars mapa).valores
        = ((sortDesc LinhaCClass.v_total
            ((ars.foldl passoArquivo ([], [])).2.map (mkLinhaCClass mapa))).take 20).map
              (fun l => if l.v_total = 0 then 0 else l.v_total) := fun _ => rfl
  refine ⟨?_, ?_, ?_, ?_, ?_, ?_, rfl⟩
  · rw [e1, e1, hf]
  · rw [e2, e2, hf]
  · rw [e3, e3, hf]
  · rw [e4, e4, hf]
  · rw [e5, e5, hf]
  · rw [e6, e6, hf]

/-- The invariant behind C10. -/
def colunasOk (info : ItemInfo) : Prop :=
  info.v_scm + info.v_sva + info.v_apps = info.v_total

theorem alAtualiza_pres {kt it : Type} [DecidableEq kt] (P : it → Prop) (k : kt)
    (f : it → it) (inicial : it) (hf : ∀ v, P v → P (f v)) (h0 : P (f inicial)) :
    ∀ l, (∀ kv ∈ l, P kv.2) → ∀ kv ∈ alAtualiza k f inicial l, P kv.2 := by
  intro l
  induction l with
  | nil =>
    intro _ kv hkv
    rw [alAtualiza] at hkv
    rw [List.mem_singleton] at hkv
    subst hkv
    exact h0
  | cons kv0 t ih =>
    obtain ⟨k2, v⟩ := kv0
    intro hall kv hkv
    rw [alAtualiza] at hkv
    by_cases h : k2 = k
    · rw [if_pos h] at hkv
      rcases List.mem_cons.mp hkv with h1 | h1
      · subst h1; exact hf v (hall (k2, v) (List.mem_cons_self _ _))
      · exact hall kv (List.mem_cons_of_mem _ h1)
    · rw [if_neg h] at hkv
      rcases List.mem_cons.mp hkv with h1 | h1
      · subst h1; exact hall (k2, v) (List.mem_cons_self _ _)
      · exact ih (fun x hx => hall x (List.mem_cons_of_mem _ hx)) kv h1

theorem aplicaItem_colunas (nid cclass : List Char) (v : ℚ) (info : ItemInfo)
    (h : colunasOk info) : colunasOk (aplicaItem nid cclass v info) := by
  unfold colunasOk at h ⊢
  simp only [aplicaItem]
  split
  · simp only [qAdd_eq]
    linarith [h]
  · split
    · simp only [qAdd_eq]
      linarith [h]
    · simp only [qAdd_eq]
      linarith [h]

theorem colunasOk_fresco : colunasOk itemFresco := by
  unfold colunasOk itemFresco
  norm_num

theorem passoItem_pres (nid : List Char) (st) (it : Item)
    (h : ∀ kv ∈ st.1, colunasOk kv.2) :
    ∀ kv ∈ (passoItem nid st it).1, colunasOk kv.2 := by
  apply alAtualiza_pres colunasOk _ _ itemFresco
  · exact fun w hw => aplicaItem_colunas _ _ _ w hw
  · exact aplicaItem_colunas _ _ _ itemFresco colunasOk_fresco
  · exact h

theorem itens_pres (nid : List Char) :
    ∀ (itens : List Item) st, (∀ kv ∈ st.1, colunasOk kv.2) →
      ∀ kv ∈ (itens.foldl (passoItem nid) st).1, colunasOk kv.2 := by
  intro itens
  induction itens with
  | nil => intro st h; exact h
  | cons it t ih =>
    intro st h
    rw [List.foldl_cons]
    exact ih (passoItem nid st it) (passoItem_pres nid st it h)

theorem fold_pres :
    ∀ (arquivos : List (List Char × Option Nota)) st,
      (∀ kv ∈ st.1, colunasOk kv.2) →
      ∀ kv ∈ (arquivos.foldl passoArquivo st).1, colunasOk kv.2 := by
  intro arquivos
  induction arquivos with
  | nil => intro st h; exact h
  | cons f resto ih =>
    intro st h
    rw [List.foldl_cons]
    apply ih
    obtain ⟨nome, o⟩ := f
    cases o with
    | none => exact h
    | some nota => exact itens_pres _ nota.itens st h

/-- C10: in every by-item row each line-item value lands in exactly one of
the three columns, so `v_scm + v_sva + v_apps = v_total`. -/
theorem C10_colunas (arquivos : List (List Char × Option Nota))
    (mapa : List (List Char × List Char)) (l : LinhaItem)
    (hl : l ∈ (montar_relatorio_resumo arquivos mapa).linhas_item) :
    l.v_scm + l.v_sva + l.v_apps = l.v_total := by
  have hli : (montar_relatorio_resumo arquivos mapa).linhas_item
      = sortDesc LinhaItem.v_total
          ((arquivos.foldl passoArquivo ([], [])).1.map
            (mkLinhaItem (somaTotais (arquivos.foldl passoArquivo ([], [])).1))) := rfl
  rw [hli, sortDesc_mem] at hl
  obtain ⟨kv, hkv, rfl⟩ := List.mem_map.mp hl
  exact fold_pres arquivos ([], []) (by intro x hx; simp at hx) kv hkv

theorem C10_colunas_testemunha :
    (⟨"Internet".toList, "0600101".toList, 2, 0, qDe 150, 0, qDe 150, qDe 100⟩ : LinhaItem)
      ∈ (montar_relatorio_resumo arquivosTeste []).linhas_item
    ∧ (0 : ℚ) + qDe 150 + 0 = qDe 150 := by
  have hm : (⟨"Internet".toList, "0600101".toList, 2, 0, qDe 150, 0, qDe 150, qDe 100⟩
      : LinhaItem) ∈ (montar_relatorio_resumo arquivosTeste []).linhas_item := by decide
  exact ⟨hm, C10_colunas arquivosTeste [] _ hm⟩

/-- C6 counterexample: a folder with 13 distinct classification codes yields
a chart series with 13 labels — not the top-12 slice the claim states. -/
theorem C6_contraexemplo :
    (montar_relatorio_resumo arquivos13 []).labels
      ≠ ((montar_relatorio_resumo arquivos13 []).linhas_cclass.take 12).map
          LinhaCClass.cClass := by decide

/-- C6 (amended): the chart series is the top-20 (not top-12) slice of the
sorted by-classification sequence, reduced to parallel label and value
sequences. -/
theorem C6_correcao (arquivos : List (List Char × Option Nota))
    (mapa : List (List Char × List Char)) :
    (montar_relatorio_resumo arquivos mapa).labels
      = (((montar_relatorio_resumo arquivos mapa).linhas_cclass.take 20).map
          LinhaCClass.cClass)
    ∧ (montar_relatorio_resumo arquivos mapa).valores
      = (((montar_relatorio_resumo arquivos mapa).linhas_cclass.take 20).map
          LinhaCClass.v_total) := by
  constructor
  · rfl
  · show (((montar_relatorio_resumo arquivos mapa).linhas_cclass.take 20).map
        (fun l => if l.v_total = 0 then 0 else l.v_total)) = _
    apply List.map_congr_left
    intro l _
    by_cases h : l.v_total = 0
    · rw [if_pos h, h]
    · rw [if_neg h]
